import Mathlib

/-!
Verification of `nuitka/utils/FileOperations.py`.

Shallow embedding of the module's operations, translated from the Python
source.  Filesystem paths appearing only as opaque keys are modelled as
natural numbers; path-string algorithms (`splitPath`, `areSamePaths`,
`listDir`) are modelled on `List Char`, following the POSIX variants of
the `os.path` primitives the source calls (`posixpath.split`,
`posixpath.join`, `posixpath.normpath`, `posixpath.normcase`,
`posixpath.abspath`).
-/

namespace FileOperations

/-- Error kinds of the underlying OSError exceptions that the modelled
operations can raise. -/
inductive Err where
  | notFound
  | isADirectory
  | fileExists
  | crossVolume
  | sameFile
deriving DecidableEq

/-! ## Per-entry retry model for `removeDirectory` (source lines 134-162)

A directory entry that external scanners transiently lock is modelled by
`EntrySt`: `present` says whether the entry still exists, `flaky` is the
number of upcoming delete attempts that fail transiently (with an
`OSError`) before a delete attempt can succeed.  A delete attempt on an
absent entry fails with `NotFound` (also an `OSError`). -/

structure EntrySt where
  present : Bool
  flaky : Nat
deriving DecidableEq

/-- One call of `func(path)` (i.e. `os.unlink`/`os.rmdir`) on the entry:
returns the new entry state and whether the call succeeded. -/
def deleteAttempt (s : EntrySt) : EntrySt × Bool :=
  if s.present = false then (s, false)
  else if s.flaky = 0 then (⟨false, 0⟩, true)
  else (⟨true, s.flaky - 1⟩, false)

/-- Trace of handling one entry: final entry state, number of
`func(path)` calls performed, whether `time.sleep(0.1)` ran, and whether
an error propagated out of the handler. -/
structure OnErrTrace where
  state : EntrySt
  calls : Nat
  slept : Bool
  raised : Bool
deriving DecidableEq

/-- The `onError` handler of `removeDirectory` (source lines 145-152),
invoked after the initial delete of the entry failed:

    try:
        func(path)
    except OSError:
        time.sleep(0.1)
    func(path)

Note that the second `func(path)` is outside the `try` block, so it runs
whether or not the first retry succeeded. -/
def onError (s : EntrySt) : OnErrTrace :=
  let r1 := deleteAttempt s
  let r2 := deleteAttempt r1.1
  if r1.2 then ⟨r2.1, 2, false, !r2.2⟩
  else ⟨r2.1, 2, true, !r2.2⟩

/-- Processing of a single entry by `shutil.rmtree(path, ignore_errors=False,
onerror=onError)`: the initial delete attempt, and on failure the
`onError` handler. -/
def removeEntry (s : EntrySt) : OnErrTrace :=
  let r0 := deleteAttempt s
  if r0.2 then ⟨r0.1, 1, false, false⟩
  else
    let t := onError r0.1
    ⟨t.state, t.calls + 1, t.slept, t.raised⟩

/-- One `shutil.rmtree(..., onerror=onError)` pass over the directory's
entries; stops at the first entry whose handler raises (the exception
propagates), returning the partially-updated entries and whether the
pass raised. -/
def rmtreePass : List EntrySt → List EntrySt × Bool
  | [] => ([], false)
  | e :: rest =>
    let t := removeEntry e
    if t.raised then (t.state :: rest, true)
    else
      let r := rmtreePass rest
      (t.state :: r.1, r.2)

/-- A `shutil.rmtree(path, ignore_errors=True)` pass: one delete attempt
per entry, every failure suppressed, never raises. -/
def rmtreeIgnore (entries : List EntrySt) : List EntrySt :=
  entries.map (fun e => (deleteAttempt e).1)

/-- Observable trace of one `removeDirectory` call: resulting directory
(`none` means the directory did not exist), number of `rmtree` passes
performed, whether the suppressed second pass ran, and whether the call
raised. -/
structure RemoveDirTrace where
  dir : Option (List EntrySt)
  passes : Nat
  suppressedPass : Bool
  raised : Bool
deriving DecidableEq

/-- `removeDirectory` (source lines 154-162):

    if os.path.exists(path):
        try:
            shutil.rmtree(path, ignore_errors=False, onerror=onError)
        except OSError:
            if ignore_errors:
                shutil.rmtree(path, ignore_errors=ignore_errors)
            else:
                raise
-/
def removeDirectory (d : Option (List EntrySt)) (ignoreErrors : Bool) : RemoveDirTrace :=
  match d with
  | none => ⟨none, 0, false, false⟩
  | some entries =>
    let r := rmtreePass entries
    if r.2 then
      if ignoreErrors then ⟨some (rmtreeIgnore r.1), 2, true, false⟩
      else ⟨some r.1, 1, false, true⟩
    else ⟨some r.1, 1, false, false⟩

/-! ## Lock model for `_with_file_Lock`, `makePath`, `deleteFile`
(source lines 36-50, 80-85, 117-120)

The process-wide lock is a pair of flags (`created`, `held`); the
filesystem of these lock-protected operations maps opaque path keys to
entries.  `_with_file_Lock` is a `@contextmanager` generator with no
`try`/`finally` around its `yield`: when the body raises, the exception
is thrown into the generator at the `yield` and the code after it (the
`release`) never runs, so we faithfully keep `held := true` on the error
path. -/

inductive Entry where
  | file
  | dir
deriving DecidableEq

abbrev FSd := Nat → Option Entry

structure LockSt where
  created : Bool
  held : Bool
deriving DecidableEq

structure SysState where
  lock : LockSt
  fs : FSd

/-- Result of a lock-protected operation: normal return, a propagated
exception (with the state at that point), or blocking forever on
`file_lock.acquire()` because the lock is already held. -/
inductive Res where
  | ok (s : SysState)
  | raised (s : SysState) (e : Err)
  | blocked

/-- The `_with_file_Lock` context manager wrapped around a body.
Creates the singleton lock on first use, acquires it (blocking if it is
already held), runs the body, and releases only on the normal path - the
generator has no `try`/`finally`, so a body exception skips the release. -/
def withFileLock (body : FSd → Except Err FSd) (s : SysState) : Res :=
  if s.lock.held then .blocked
  else
    match body s.fs with
    | .ok fs1 => .ok ⟨⟨true, false⟩, fs1⟩
    | .error e => .raised ⟨⟨true, true⟩, s.fs⟩ e

/-- `os.path.isfile` on the opaque-key filesystem. -/
def isfile (fs : FSd) (p : Nat) : Bool := fs p = some .file

/-- `os.path.isdir`. -/
def isdir (fs : FSd) (p : Nat) : Bool := fs p = some .dir

/-- `os.unlink`: removes a regular file; `NotFound` on an absent path,
`IsADirectory` on a directory. -/
def unlinkD (fs : FSd) (p : Nat) : Except Err FSd :=
  match fs p with
  | none => .error .notFound
  | some .dir => .error .isADirectory
  | some .file => .ok (fun q => if q = p then none else fs q)

/-- `os.makedirs`: creates the directory; raises `FileExists` when the
path already exists (as guarded by the caller, it is only reached when
the path is not a directory). -/
def makedirs (fs : FSd) (p : Nat) : Except Err FSd :=
  match fs p with
  | none => .ok (fun q => if q = p then some .dir else fs q)
  | some _ => .error .fileExists

/-- `deleteFile` (source lines 117-120):

    with _with_file_Lock():
        if must_exist or os.path.isfile(path):
            os.unlink(path)
-/
def deleteFile (s : SysState) (p : Nat) (mustExist : Bool) : Res :=
  withFileLock (fun fs => if mustExist || isfile fs p then unlinkD fs p else .ok fs) s

/-- `makePath` (source lines 80-85):

    with _with_file_Lock():
        if not os.path.isdir(path):
            os.makedirs(path)
-/
def makePath (s : SysState) (p : Nat) : Res :=
  withFileLock (fun fs => if isdir fs p then .ok fs else makedirs fs p) s

/-- Initial state for concrete runs: lock not yet created, empty
filesystem. -/
def s0 : SysState := ⟨⟨false, false⟩, fun _ => none⟩

/-! ## Model for `renameFile` (source lines 183-194)

Here paths are again opaque keys; a file has a permission mode and an
abstract content.  `vol` assigns each path to a volume: `os.rename`
fails with a cross-volume `OSError` when source and destination live on
different volumes. -/

structure File where
  mode : Nat
  content : Nat
deriving DecidableEq

abbrev FSr := Nat → Option File

/-- Pointwise update of the rename-model filesystem. -/
def fsSet (fs : FSr) (p : Nat) (v : Option File) : FSr :=
  fun q => if q = p then v else fs q

/-- `os.stat`: fails with `NotFound` on an absent path. -/
def osStat (fs : FSr) (p : Nat) : Except Err File :=
  match fs p with
  | none => .error .notFound
  | some f => .ok f

/-- `os.rename`: atomic move that overwrites the destination; fails if
the source is absent or on a cross-volume move. -/
def osRename (vol : Nat → Nat) (fs : FSr) (src dst : Nat) : Except Err FSr :=
  match fs src with
  | none => .error .notFound
  | some f =>
    if vol src = vol dst then .ok (fsSet (fsSet fs src none) dst (some f))
    else .error .crossVolume

/-- `shutil.copyfile`: copies the source's bytes to the destination.  A
pre-existing destination keeps its mode; a fresh destination gets the
process default mode.  Copying a path onto itself raises. -/
def copyDefaultMode : Nat := 420

def copyfile (fs : FSr) (src dst : Nat) : Except Err FSr :=
  if src = dst then .error .sameFile
  else
    match fs src with
    | none => .error .notFound
    | some f =>
      match fs dst with
      | some g => .ok (fsSet fs dst (some ⟨g.mode, f.content⟩))
      | none => .ok (fsSet fs dst (some ⟨copyDefaultMode, f.content⟩))

/-- `os.unlink` in the rename model. -/
def unlinkR (fs : FSr) (p : Nat) : Except Err FSr :=
  match fs p with
  | none => .error .notFound
  | some _ => .ok (fsSet fs p none)

/-- `os.chmod`: fails on an absent path. -/
def chmod (fs : FSr) (p : Nat) (m : Nat) : Except Err FSr :=
  match fs p with
  | none => .error .notFound
  | some f => .ok (fsSet fs p (some ⟨m, f.content⟩))

/-- `renameFile` (source lines 183-194):

    old_stat = os.stat(source_filename)
    try:
        os.rename(source_filename, dest_filename)
    except OSError:
        shutil.copyfile(source_filename, dest_filename)
        os.unlink(source_filename)
    os.chmod(dest_filename, old_stat.st_mode)
-/
def renameFile (vol : Nat → Nat) (fs : FSr) (src dst : Nat) : Except Err FSr :=
  match osStat fs src with
  | .error e => .error e
  | .ok old =>
    match osRename vol fs src dst with
    | .ok fs1 => chmod fs1 dst old.mode
    | .error _ =>
      match copyfile fs src dst with
      | .error e => .error e
      | .ok fs2 =>
        match unlinkR fs2 src with
        | .error e => .error e
        | .ok fs3 => chmod fs3 dst old.mode

/-! ## Path-string model

`splitPath`, `areSamePaths` and `listDir` manipulate the path strings
themselves, so here paths are `List Char` and the `os.path` primitives
the source calls are translated from CPython's `posixpath`. -/

/-- Is the character the POSIX path separator? -/
def isSepB (c : Char) : Bool := c == '/'

/-- Negation of `isSepB`, used for scanning to the last separator. -/
def notSepB (c : Char) : Bool := !(c == '/')

/-- Prepend a character to the first component of a non-empty component
list (helper for `splitSep`). -/
def consHead (c : Char) : List (List Char) → List (List Char)
  | [] => [[c]]
  | comp :: comps => (c :: comp) :: comps

/-- `str.split('/')`: the components of the string between `'/'`
occurrences, keeping empty components (`"".split('/') == ['']`). -/
def splitSep : List Char → List (List Char)
  | [] => [[]]
  | c :: rest => if c = '/' then [] :: splitSep rest else consHead c (splitSep rest)

/-- The `initial_slashes` value of `posixpath.normpath`: 0 when the path
is relative, 2 when it starts with exactly two slashes (POSIX-reserved),
1 otherwise. -/
def isl : List Char → Nat
  | [] => 0
  | c :: rest =>
    if c = '/' then
      match rest with
      | [] => 1
      | c2 :: rest2 =>
        if c2 = '/' then
          match rest2 with
          | [] => 2
          | c3 :: _ => if c3 = '/' then 1 else 2
        else 1
    else 0

/-- One step of `posixpath.normpath`'s component loop: skip empty and
`"."` components, append a component unless it is a `".."` that cancels
against a previous real component, pop in that case. -/
def normStep (i : Nat) (acc : List (List Char)) (comp : List Char) : List (List Char) :=
  if comp = [] ∨ comp = ['.'] then acc
  else if comp ≠ ['.', '.'] ∨ (i = 0 ∧ acc = []) ∨ acc.getLast? = some ['.', '.'] then
    acc ++ [comp]
  else acc.dropLast

/-- Reassembly of `posixpath.normpath`'s result from the initial-slash
count and the processed components (`'/'.join` plus leading slashes,
empty result becoming `"."`). -/
def normFrom (i : Nat) (comps : List (List Char)) : List Char :=
  if List.replicate i '/' ++ List.intercalate ['/'] (comps.foldl (normStep i) []) = [] then ['.']
  else List.replicate i '/' ++ List.intercalate ['/'] (comps.foldl (normStep i) [])

/-- `posixpath.normpath`. -/
def normpath (p : List Char) : List Char :=
  if p = [] then ['.'] else normFrom (isl p) (splitSep p)

/-- The tail part of `posixpath.split`: everything after the last
separator. -/
def osSplitTail (p : List Char) : List Char := (p.reverse.takeWhile notSepB).reverse

/-- The raw head part of `posixpath.split`: everything up to and
including the last separator. -/
def osSplitHeadRaw (p : List Char) : List Char := (p.reverse.dropWhile notSepB).reverse

/-- The head part of `posixpath.split`: the raw head with trailing
separators stripped, unless it is empty or consists only of
separators. -/
def osSplitHead (p : List Char) : List Char :=
  if osSplitHeadRaw p = [] ∨ (osSplitHeadRaw p).all isSepB then osSplitHeadRaw p
  else ((p.reverse.dropWhile notSepB).dropWhile isSepB).reverse

/-- `os.path.split(path)` as the pair (head, tail). -/
def osSplit (p : List Char) : List Char × List Char := (osSplitHead p, osSplitTail p)

/-- `splitPath` (source lines 123-125):

    return tuple(element for element in os.path.split(path) if element)
-/
def splitPath (p : List Char) : List (List Char) :=
  [osSplitHead p, osSplitTail p].filter (fun e => !e.isEmpty)

/-- `posixpath.join` for two operands: the second operand replaces the
first when absolute, otherwise it is appended with a separator inserted
unless the first is empty or already ends with one. -/
def joinPy (a b : List Char) : List Char :=
  if b.take 1 = ['/'] then b
  else if a = [] ∨ a.getLast? = some '/' then a ++ b
  else a ++ '/' :: b

/-- Joining a sequence of components with the platform path-join
(`joinPy` folded from the first component; no components give the empty
path). -/
def joinAll : List (List Char) → List Char
  | [] => []
  | a :: rest => rest.foldl joinPy a

/-- `posixpath.isabs`. -/
def isabs (p : List Char) : Bool := p.take 1 = ['/']

/-- `posixpath.normcase` is the identity on POSIX. -/
def normcase (p : List Char) : List Char := p

/-- `posixpath.abspath` with the current working directory made an
explicit parameter (the source reads it via `os.getcwd()`): relative
paths are joined to the cwd, and the result is normalized. -/
def abspath (cwd p : List Char) : List Char :=
  if isabs p then normpath p else normpath (joinPy cwd p)

/-- `areSamePaths` (source lines 53-64):

    path1 = os.path.normcase(os.path.abspath(os.path.normpath(path1)))
    path2 = os.path.normcase(os.path.abspath(os.path.normpath(path2)))
    return path1 == path2
-/
def areSamePaths (cwd p1 p2 : List Char) : Bool :=
  decide (normcase (abspath cwd (normpath p1)) = normcase (abspath cwd (normpath p2)))

/-! ## Model for `listDir` (source lines 88-93)

`os.listdir` returns the children's bare names in unspecified order;
the list of names is the explicit input here.  Python's `sorted` sorts
tuples lexicographically (first component, then second), modelled by
insertion sort with the tuple order on code points. -/

/-- Python string `<=` on code points. -/
def strLe : List Char → List Char → Bool
  | [], _ => true
  | _ :: _, [] => false
  | a :: as, b :: bs => if a = b then strLe as bs else decide (a < b)

/-- Python tuple `<=` for the (full path, name) pairs: full path is the
primary key, name breaks ties. -/
def pairLe (x y : List Char × List Char) : Bool :=
  if x.1 = y.1 then strLe x.2 y.2 else strLe x.1 y.1

/-- `pairLe` as a relation. -/
def pairLeP (x y : List Char × List Char) : Prop := pairLe x y = true

instance : DecidableRel pairLeP :=
  fun x y => inferInstanceAs (Decidable (pairLe x y = true))

/-- `listDir` (source lines 88-93):

    return sorted(
        [(os.path.join(path, filename), filename) for filename in os.listdir(path)]
    )
-/
def listDir (path : List Char) (names : List (List Char)) : List (List Char × List Char) :=
  List.insertionSort pairLeP (names.map (fun n => (joinPy path n, n)))

/-! ## Helper lemmas for the opaque-key filesystems -/

theorem fsSet_self (fs : FSr) (p : Nat) (v : Option File) : fsSet fs p v p = v := by
  simp [fsSet]

theorem fsSet_other (fs : FSr) (p : Nat) (v : Option File) (q : Nat) (h : q ≠ p) :
    fsSet fs p v q = fs q := by
  simp [fsSet, h]

/-! ## Helper lemmas for the path-string model -/

theorem consHead_ne_nil (c : Char) (l : List (List Char)) : consHead c l ≠ [] := by
  cases l <;> simp [consHead]

theorem consHead_append (c : Char) {l : List (List Char)} (m : List (List Char))
    (h : l ≠ []) : consHead c (l ++ m) = consHead c l ++ m := by
  cases l with
  | nil => exact absurd rfl h
  | cons a as => simp [consHead]

theorem splitSep_ne_nil : ∀ l : List Char, splitSep l ≠ []
  | [] => by simp [splitSep]
  | c :: rest => by
    by_cases hc : c = '/' <;> simp [splitSep, hc, consHead_ne_nil]

/-- Splitting on the separator distributes over an append at a
separator. -/
theorem splitSep_append_sep : ∀ u v : List Char,
    splitSep (u ++ '/' :: v) = splitSep u ++ splitSep v
  | [], v => by simp [splitSep]
  | c :: w, v => by
    by_cases hc : c = '/'
    · simp [splitSep, hc, splitSep_append_sep w v]
    · simp [splitSep, hc, splitSep_append_sep w v,
        consHead_append c (splitSep v) (splitSep_ne_nil w)]

theorem splitSep_concat_sep (u : List Char) :
    splitSep (u ++ ['/']) = splitSep u ++ [[]] := by
  simpa [splitSep] using splitSep_append_sep u []

theorem splitSep_replicate_sep : ∀ (m : Nat) (t : List Char),
    splitSep (List.replicate m '/' ++ t) = List.replicate m ([] : List Char) ++ splitSep t
  | 0, t => by simp
  | m + 1, t => by
    simp [List.replicate_succ, splitSep, splitSep_replicate_sep m t]

theorem normStep_nil_comp (i : Nat) (acc : List (List Char)) : normStep i acc [] = acc := by
  simp [normStep]

theorem foldl_normStep_replicate (i : Nat) : ∀ (m : Nat) (acc : List (List Char)),
    List.foldl (normStep i) acc (List.replicate m []) = acc
  | 0, _ => rfl
  | m + 1, acc => by
    simp [List.replicate_succ, normStep_nil_comp, foldl_normStep_replicate i m acc]

/-- Appending one trailing separator does not change the
initial-slashes count, except for the empty, root, and double-root
paths. -/
theorem isl_append_slash (p : List Char) (h0 : p ≠ []) (h1 : p ≠ ['/'])
    (h2 : p ≠ ['/', '/']) : isl (p ++ ['/']) = isl p := by
  match p, h0 with
  | [c], _ =>
    have hc : c ≠ '/' := fun h => h1 (by rw [h])
    simp [isl, hc]
  | [c1, c2], _ =>
    by_cases hc1 : c1 = '/'
    · have hc2 : c2 ≠ '/' := fun h => h2 (by rw [hc1, h])
      subst hc1
      simp [isl, hc2]
    · simp [isl, hc1]
  | c1 :: c2 :: c3 :: rest, _ =>
    by_cases hh1 : c1 = '/' <;> by_cases hh2 : c2 = '/' <;> by_cases hh3 : c3 = '/' <;>
      simp [isl, hh1, hh2, hh3]

/-- For a head that is non-empty and does not end with a separator, the
initial-slashes count of `head ++ x` does not depend on `x`. -/
theorem isl_extend (h : List Char) (hne : h ≠ []) (hlast : h.getLast? ≠ some '/')
    (x y : List Char) : isl (h ++ x) = isl (h ++ y) := by
  match h, hne with
  | [c], _ =>
    have hc : c ≠ '/' := fun hh => hlast (by rw [hh]; rfl)
    simp [isl, hc]
  | [c1, c2], _ =>
    have hc2 : c2 ≠ '/' := fun hh => hlast (by rw [hh]; rfl)
    by_cases hc1 : c1 = '/' <;> simp [isl, hc1, hc2]
  | c1 :: c2 :: c3 :: rest, _ =>
    by_cases hh1 : c1 = '/' <;> by_cases hh2 : c2 = '/' <;> by_cases hh3 : c3 = '/' <;>
      simp [isl, hh1, hh2, hh3]

/-- A single trailing separator never changes the normalized path,
except for the empty, root, and double-root inputs. -/
theorem normpath_append_slash (p : List Char) (h0 : p ≠ []) (h1 : p ≠ ['/'])
    (h2 : p ≠ ['/', '/']) : normpath (p ++ ['/']) = normpath p := by
  have hne : p ++ ['/'] ≠ [] := by simp
  rw [normpath, normpath, if_neg hne, if_neg h0, isl_append_slash p h0 h1 h2,
    splitSep_concat_sep]
  simp [normFrom, normStep_nil_comp]

/-- Collapsing a run of separators after a head that is non-empty and
does not end with a separator leaves the normalized path unchanged. -/
theorem normpath_collapse (h : List Char) (hne : h ≠ []) (hlast : h.getLast? ≠ some '/')
    (k : Nat) (t : List Char) :
    normpath (h ++ List.replicate (k + 1) '/' ++ t) = normpath (h ++ '/' :: t) := by
  have hne1 : h ++ List.replicate (k + 1) '/' ++ t ≠ [] := by simp [hne]
  have hne2 : h ++ '/' :: t ≠ [] := by simp
  rw [normpath, normpath, if_neg hne1, if_neg hne2]
  have hisl : isl (h ++ List.replicate (k + 1) '/' ++ t) = isl (h ++ '/' :: t) := by
    rw [List.append_assoc]
    exact isl_extend h hne hlast _ _
  rw [hisl]
  have hs1 : splitSep (h ++ List.replicate (k + 1) '/' ++ t)
      = splitSep h ++ (List.replicate k [] ++ splitSep t) := by
    rw [List.append_assoc]
    have hrep : List.replicate (k + 1) '/' ++ t = '/' :: (List.replicate k '/' ++ t) := by
      simp [List.replicate_succ]
    rw [hrep, splitSep_append_sep, splitSep_replicate_sep]
  have hs2 : splitSep (h ++ '/' :: t) = splitSep h ++ splitSep t := splitSep_append_sep h t
  rw [hs1, hs2]
  simp [normFrom, foldl_normStep_replicate]

/-- The raw head and the tail of `posixpath.split` reassemble the
input. -/
theorem osSplit_recomb (p : List Char) : osSplitHeadRaw p ++ osSplitTail p = p := by
  rw [osSplitHeadRaw, osSplitTail, ← List.reverse_append,
    List.takeWhile_append_dropWhile, List.reverse_reverse]

/-- No character of the split tail is a separator. -/
theorem osSplitTail_no_sep (p : List Char) : ∀ c ∈ osSplitTail p, c ≠ '/' := by
  intro c hc
  rw [osSplitTail, List.mem_reverse] at hc
  simpa [notSepB] using List.mem_takeWhile_imp hc

theorem dropWhile_cons_head {pr : Char → Bool} (l : List Char) (c : Char)
    (rest : List Char) (h : l.dropWhile pr = c :: rest) : pr c = false := by
  induction l with
  | nil => simp [List.dropWhile] at h
  | cons a as ih =>
    rw [List.dropWhile_cons] at h
    by_cases ha : pr a = true
    · rw [if_pos ha] at h
      exact ih h
    · rw [if_neg ha] at h
      injection h with h1 _
      subst h1
      simpa using ha

/-- A non-empty raw head always ends with the separator. -/
theorem osSplitHeadRaw_getLast (p : List Char) (h : osSplitHeadRaw p ≠ []) :
    (osSplitHeadRaw p).getLast? = some '/' := by
  rw [osSplitHeadRaw] at h ⊢
  rcases hd : p.reverse.dropWhile notSepB with _ | ⟨c, rest⟩
  · simp [hd] at h
  · rw [List.getLast?_reverse]
    have hc : c = '/' := by simpa [notSepB] using dropWhile_cons_head p.reverse c rest hd
    simp [hc]

/-! ## Claim theorems for the retry, lock and rename models -/

/-- C1: the claim says that after a failed initial delete the entry's
delete is retried once immediately, that the 100 ms sleep and one final
retry happen only when the immediate retry also fails, and that an entry
whose immediate retry succeeds gets no further delete attempt and raises
no error.  The code contradicts the last part: the final `func(path)`
sits outside the `try` block, so an entry that fails once and is then
deleted by the immediate retry (`flaky = 1`) still gets a third call,
which fails with `NotFound` and propagates (`raised = true`).  An entry
needing the full two retries (`flaky = 2`) behaves as described. -/
theorem removeEntry_third_call_bug :
    removeEntry ⟨true, 1⟩ = ⟨⟨false, 0⟩, 3, false, true⟩ ∧
    removeEntry ⟨true, 2⟩ = ⟨⟨false, 0⟩, 3, true, false⟩ ∧
    removeEntry ⟨true, 0⟩ = ⟨⟨false, 0⟩, 1, false, false⟩ := by
  decide

/-- C2: the claim says every lock-protected operation releases the lock
on every exit path, including error paths, so that a subsequent
lock-protected operation can acquire it.  The `_with_file_Lock`
generator has no `try`/`finally`, so when `deleteFile` with
`mustExist = true` raises `NotFound` on a missing path the `release()`
after the `yield` never runs: the lock stays held and a subsequent
`makePath` blocks forever. -/
theorem lock_held_after_error_bug :
    deleteFile s0 0 true = .raised ⟨⟨true, true⟩, s0.fs⟩ .notFound ∧
    (⟨⟨true, true⟩, s0.fs⟩ : SysState).lock.held = true ∧
    makePath ⟨⟨true, true⟩, s0.fs⟩ 1 = .blocked :=
  ⟨rfl, rfl, rfl⟩

/-- C3: if the per-entry-retried pass raises to the top level, then with
`ignoreErrors = true` one more full pass runs with all entry-level
errors suppressed and `removeDirectory` returns without error, and with
`ignoreErrors = false` the error propagates and no suppressed second
pass runs. -/
theorem removeDirectory_top_level_retry (entries : List EntrySt)
    (h : (rmtreePass entries).2 = true) :
    removeDirectory (some entries) true =
      ⟨some (rmtreeIgnore (rmtreePass entries).1), 2, true, false⟩ ∧
    removeDirectory (some entries) false =
      ⟨some (rmtreePass entries).1, 1, false, true⟩ := by
  constructor <;> simp [removeDirectory, h]

theorem removeDirectory_top_level_retry_witness :
    (rmtreePass [⟨true, 5⟩]).2 = true ∧
    removeDirectory (some [⟨true, 5⟩]) true =
      ⟨some (rmtreeIgnore (rmtreePass [⟨true, 5⟩]).1), 2, true, false⟩ ∧
    removeDirectory (some [⟨true, 5⟩]) false =
      ⟨some (rmtreePass [⟨true, 5⟩]).1, 1, false, true⟩ :=
  ⟨by decide, (removeDirectory_top_level_retry [⟨true, 5⟩] (by decide)).1,
    (removeDirectory_top_level_retry [⟨true, 5⟩] (by decide)).2⟩

/-- C6: `removeDirectory` on a non-existent path performs no removal
attempt (zero passes) and returns successfully, under both
`ignoreErrors` settings. -/
theorem removeDirectory_nonexistent_noop (ign : Bool) :
    removeDirectory none ign = ⟨none, 0, false, false⟩ := rfl

/-- C4: `deleteFile` attempts `unlink` iff `mustExist` is true or the
path currently exists as a regular file (so a missing or directory path
with `mustExist = false` is a silent no-op, and an existing regular file
is always unlinked), and for a non-existent path a `NotFound` failure
surfaces to the caller exactly when `mustExist` is true. -/
theorem deleteFile_spec (s : SysState) (p : Nat) (m : Bool) (hl : s.lock.held = false) :
    (s.fs p = none → m = false → deleteFile s p m = .ok ⟨⟨true, false⟩, s.fs⟩) ∧
    (s.fs p = some .dir → m = false → deleteFile s p m = .ok ⟨⟨true, false⟩, s.fs⟩) ∧
    (s.fs p = some .file →
      deleteFile s p m = .ok ⟨⟨true, false⟩, fun q => if q = p then none else s.fs q⟩) ∧
    (s.fs p = none →
      (deleteFile s p m = .raised ⟨⟨true, true⟩, s.fs⟩ .notFound ↔ m = true)) := by
  refine ⟨?_, ?_, ?_, ?_⟩
  · intro hfs hm
    subst hm
    simp [deleteFile, withFileLock, hl, isfile, hfs, unlinkD]
  · intro hfs hm
    subst hm
    simp [deleteFile, withFileLock, hl, isfile, hfs, unlinkD]
  · intro hfs
    simp [deleteFile, withFileLock, hl, isfile, hfs, unlinkD]
  · intro hfs
    constructor
    · intro hres
      by_contra hm
      have hm' : m = false := by
        cases m
        · rfl
        · exact absurd rfl hm
      subst hm'
      simp [deleteFile, withFileLock, hl, isfile, hfs, unlinkD] at hres
    · intro hm
      subst hm
      simp [deleteFile, withFileLock, hl, isfile, hfs, unlinkD]

theorem deleteFile_spec_witness :
    s0.lock.held = false ∧ s0.fs 0 = none ∧
    (deleteFile s0 0 true = .raised ⟨⟨true, true⟩, s0.fs⟩ .notFound ↔ true = true) :=
  ⟨rfl, rfl, (deleteFile_spec s0 0 true rfl).2.2.2 rfl⟩

/-- C5: `renameFile` captures the source mode first (a missing source
makes the initial `os.stat` fail and that error propagates with nothing
attempted), and otherwise - whether the atomic rename succeeds or the
cross-volume fallback copy-then-unlink runs - it ends with the
destination existing with the source's original mode and content and
the source no longer existing. -/
theorem renameFile_spec :
    (∀ (vol : Nat → Nat) (fs : FSr) (src dst : Nat) (f : File), src ≠ dst →
      fs src = some f →
      ∃ fs1, renameFile vol fs src dst = .ok fs1 ∧ fs1 dst = some f ∧ fs1 src = none) ∧
    (∀ (vol : Nat → Nat) (fs : FSr) (src dst : Nat), fs src = none →
      renameFile vol fs src dst = .error .notFound) := by
  constructor
  · intro vol fs src dst f hne hsrc
    have hdne : dst ≠ src := fun h => hne h.symm
    by_cases hv : vol src = vol dst
    · refine ⟨fsSet (fsSet (fsSet fs src none) dst (some f)) dst
        (some ⟨f.mode, f.content⟩), ?_, ?_, ?_⟩
      · simp [renameFile, osStat, hsrc, osRename, hv, chmod, fsSet_self]
      · simp [fsSet_self]
      · rw [fsSet_other _ _ _ _ hne, fsSet_other _ _ _ _ hne, fsSet_self]
    · rcases hdst : fs dst with _ | g
      · refine ⟨fsSet (fsSet (fsSet fs dst (some ⟨copyDefaultMode, f.content⟩)) src none)
          dst (some ⟨f.mode, f.content⟩), ?_, ?_, ?_⟩
        · simp [renameFile, osStat, hsrc, osRename, hv, copyfile, hne, hdst, unlinkR,
            fsSet_other _ _ _ _ hne, hsrc, chmod, fsSet_other _ _ _ _ hdne, fsSet_self]
        · simp [fsSet_self]
        · rw [fsSet_other _ _ _ _ hne, fsSet_self]
      · refine ⟨fsSet (fsSet (fsSet fs dst (some ⟨g.mode, f.content⟩)) src none)
          dst (some ⟨f.mode, f.content⟩), ?_, ?_, ?_⟩
        · simp [renameFile, osStat, hsrc, osRename, hv, copyfile, hne, hdst, unlinkR,
            fsSet_other _ _ _ _ hne, hsrc, chmod, fsSet_other _ _ _ _ hdne, fsSet_self]
        · simp [fsSet_self]
        · rw [fsSet_other _ _ _ _ hne, fsSet_self]
  · intro vol fs src dst hsrc
    simp [renameFile, osStat, hsrc]

theorem renameFile_spec_witness :
    ((1 : Nat) ≠ 2 ∧
      ∃ fs1, renameFile (fun q => q) (fun q => if q = 1 then some ⟨6, 9⟩ else none) 1 2 =
        .ok fs1 ∧ fs1 2 = some ⟨6, 9⟩ ∧ fs1 1 = none) ∧
    renameFile (fun q => q) (fun _ => none) 1 2 = .error .notFound :=
  ⟨⟨by decide, renameFile_spec.1 (fun q => q)
      (fun q => if q = 1 then some ⟨6, 9⟩ else none) 1 2 ⟨6, 9⟩ (by decide) rfl⟩,
    renameFile_spec.2 (fun q => q) (fun _ => none) 1 2 rfl⟩

/-- A non-empty split tail does not start with a separator. -/
theorem osSplitTail_take_ne (p : List Char) (ht : osSplitTail p ≠ []) :
    (osSplitTail p).take 1 ≠ ['/'] := by
  rcases hts : osSplitTail p with _ | ⟨c, cs⟩
  · exact absurd hts ht
  · have hc : c ≠ '/' := osSplitTail_no_sep p c (hts ▸ List.mem_cons_self c cs)
    intro hcon
    have h2 : [c] = ['/'] := hcon
    injection h2 with h3
    exact hc h3

/-- When the input has no separator, joining the components of
`splitPath` gives back the input. -/
theorem joinAll_splitPath_caseA (p : List Char) (hraw : osSplitHeadRaw p = []) :
    joinAll (splitPath p) = p := by
  have hrec := osSplit_recomb p
  rw [hraw, List.nil_append] at hrec
  have hHead : osSplitHead p = [] := by rw [osSplitHead, if_pos (Or.inl hraw), hraw]
  rw [splitPath, hHead]
  by_cases ht : osSplitTail p = []
  · rw [ht]
    simp [joinAll]
    rw [← hrec, ht]
  · have hemp : (osSplitTail p).isEmpty = false := by simp [ht]
    have hfil : ([([] : List Char), osSplitTail p]).filter (fun e => !e.isEmpty)
        = [osSplitTail p] := by
      simp [List.filter, hemp]
    rw [hfil]
    exact hrec

/-- When the raw head consists only of separators, joining the
components of `splitPath` gives back the input. -/
theorem joinAll_splitPath_caseB (p : List Char) (hraw : osSplitHeadRaw p ≠ [])
    (hall : (osSplitHeadRaw p).all isSepB = true) :
    joinAll (splitPath p) = p := by
  have hrec := osSplit_recomb p
  have hHead : osSplitHead p = osSplitHeadRaw p := by rw [osSplitHead, if_pos (Or.inr hall)]
  have hLast : (osSplitHeadRaw p).getLast? = some '/' := osSplitHeadRaw_getLast p hraw
  rw [splitPath, hHead]
  have hempr : (osSplitHeadRaw p).isEmpty = false := by simp [hraw]
  by_cases ht : osSplitTail p = []
  · rw [ht]
    have hfil : ([osSplitHeadRaw p, ([] : List Char)]).filter (fun e => !e.isEmpty)
        = [osSplitHeadRaw p] := by
      simp [List.filter, hempr]
    rw [hfil]
    have hja : joinAll [osSplitHeadRaw p] = osSplitHeadRaw p := rfl
    rw [hja]
    conv_rhs => rw [← hrec, ht, List.append_nil]
  · have hempt : (osSplitTail p).isEmpty = false := by simp [ht]
    have hfil : ([osSplitHeadRaw p, osSplitTail p]).filter (fun e => !e.isEmpty)
        = [osSplitHeadRaw p, osSplitTail p] := by
      simp [List.filter, hempr, hempt]
    rw [hfil]
    have hja : joinAll [osSplitHeadRaw p, osSplitTail p]
        = joinPy (osSplitHeadRaw p) (osSplitTail p) := rfl
    rw [hja, joinPy, if_neg (osSplitTail_take_ne p ht), if_pos (Or.inr hLast)]
    exact hrec

/-- When the raw head contains a non-separator, the split head is the
raw head without its trailing separator run: it is non-empty, does not
end with a separator, and the input is the head, a non-empty separator
run, and the tail. -/
theorem osSplit_caseC (p : List Char) (hraw : osSplitHeadRaw p ≠ [])
    (hall : ¬((osSplitHeadRaw p).all isSepB = true)) :
    osSplitHead p ≠ [] ∧ (osSplitHead p).getLast? ≠ some '/' ∧
    ∃ k, p = osSplitHead p ++ (List.replicate (k + 1) '/' ++ osSplitTail p) := by
  rcases hhr : p.reverse.dropWhile notSepB with _ | ⟨c, rest⟩
  · exact absurd (by rw [osSplitHeadRaw, hhr, List.reverse_nil]) hraw
  · have hc : c = '/' := by simpa [notSepB] using dropWhile_cons_head p.reverse c rest hhr
    subst hc
    have hrawEq : osSplitHeadRaw p = ('/' :: rest).reverse := by rw [osSplitHeadRaw, hhr]
    have hcond : ¬(osSplitHeadRaw p = [] ∨ (osSplitHeadRaw p).all isSepB = true) := by
      intro hcon
      rcases hcon with h1 | h2
      · exact hraw h1
      · exact hall h2
    have hHead : osSplitHead p = (('/' :: rest).dropWhile isSepB).reverse := by
      rw [osSplitHead, if_neg hcond, hhr]
    rcases hdd : ('/' :: rest).dropWhile isSepB with _ | ⟨d, drest⟩
    · exfalso
      apply hall
      rw [hrawEq, List.all_eq_true]
      intro x hx
      rw [List.mem_reverse] at hx
      rw [← List.takeWhile_append_dropWhile (p := isSepB) (l := '/' :: rest), hdd,
        List.append_nil] at hx
      exact List.mem_takeWhile_imp hx
    · have hdns : isSepB d = false := dropWhile_cons_head _ d drest hdd
      have hdne : d ≠ '/' := by simpa [isSepB] using hdns
      refine ⟨?_, ?_, ?_⟩
      · rw [hHead, hdd]
        simp
      · rw [hHead, hdd, List.getLast?_reverse]
        simp [hdne]
      · have hsl : ∀ x ∈ ('/' :: rest).takeWhile isSepB, x = '/' := by
          intro x hx
          simpa [isSepB] using List.mem_takeWhile_imp hx
        have hslRep : ('/' :: rest).takeWhile isSepB
            = List.replicate (('/' :: rest).takeWhile isSepB).length '/' :=
          List.eq_replicate_of_mem hsl
        have hlen : (('/' :: rest).takeWhile isSepB).length
            = (rest.takeWhile isSepB).length + 1 := by
          simp [List.takeWhile_cons, isSepB]
        refine ⟨(rest.takeWhile isSepB).length, ?_⟩
        have hcalc : ('/' :: rest).reverse
            = (('/' :: rest).dropWhile isSepB).reverse
              ++ List.replicate ((rest.takeWhile isSepB).length + 1) '/' := by
          conv_lhs => rw [← List.takeWhile_append_dropWhile (p := isSepB) (l := '/' :: rest)]
          rw [List.reverse_append]
          congr 1
          rw [hslRep, hlen, List.reverse_replicate]
        have hrec := osSplit_recomb p
        conv_lhs => rw [← hrec]
        rw [hrawEq, hHead, hdd, hcalc, hdd, List.append_assoc]

/-- C7: `splitPath` returns no empty components, and joining the
returned components with the platform path-join reconstructs a path
equal to the input under `normpath` normalization. -/
theorem splitPath_spec (p : List Char) :
    (∀ x ∈ splitPath p, x ≠ []) ∧ normpath (joinAll (splitPath p)) = normpath p := by
  constructor
  · intro x hx
    rw [splitPath, List.mem_filter] at hx
    simpa using hx.2
  · by_cases hraw : osSplitHeadRaw p = []
    · rw [joinAll_splitPath_caseA p hraw]
    · by_cases hall : (osSplitHeadRaw p).all isSepB = true
      · rw [joinAll_splitPath_caseB p hraw hall]
      · obtain ⟨hne, hlast, k, hp⟩ := osSplit_caseC p hraw hall
        have hne1 : osSplitHead p ≠ ['/'] := fun hh => hlast (by rw [hh]; rfl)
        have hne2 : osSplitHead p ≠ ['/', '/'] := fun hh => hlast (by rw [hh]; rfl)
        have hemph : (osSplitHead p).isEmpty = false := by simp [hne]
        by_cases ht : osSplitTail p = []
        · have hfil : splitPath p = [osSplitHead p] := by
            rw [splitPath, ht]
            simp [List.filter, hemph]
          rw [hfil]
          have hja : joinAll [osSplitHead p] = osSplitHead p := rfl
          rw [hja]
          conv_rhs => rw [hp, ht, List.append_nil]
          have h1 := normpath_collapse (osSplitHead p) hne hlast k []
          rw [List.append_nil] at h1
          rw [h1]
          have h2 : osSplitHead p ++ '/' :: ([] : List Char) = osSplitHead p ++ ['/'] := rfl
          rw [h2, normpath_append_slash (osSplitHead p) hne hne1 hne2]
        · have hempt : (osSplitTail p).isEmpty = false := by simp [ht]
          have hfil : splitPath p = [osSplitHead p, osSplitTail p] := by
            rw [splitPath]
            simp [List.filter, hemph, hempt]
          rw [hfil]
          have hja : joinAll [osSplitHead p, osSplitTail p]
              = joinPy (osSplitHead p) (osSplitTail p) := rfl
          rw [hja, joinPy, if_neg (osSplitTail_take_ne p ht),
            if_neg (by
              intro hcon
              rcases hcon with h1 | h2
              · exact hne h1
              · exact hlast h2)]
          conv_rhs => rw [hp, ← List.append_assoc]
          exact (normpath_collapse (osSplitHead p) hne hlast k (osSplitTail p)).symm

/-- C10: `splitPath` performs a single head/tail split with empty
elements removed: it returns at most two components, each of which is
the split head or the split tail. -/
theorem splitPath_at_most_two (p : List Char) :
    (splitPath p).length ≤ 2 ∧
    ∀ x ∈ splitPath p, x = osSplitHead p ∨ x = osSplitTail p := by
  constructor
  · have hlen := List.length_filter_le (fun e => !e.isEmpty) [osSplitHead p, osSplitTail p]
    simpa [splitPath] using hlen
  · intro x hx
    rw [splitPath, List.mem_filter] at hx
    simpa using hx.1

/-- C8 as stated is false at concrete inputs: on POSIX the root path
`"/"` and `"//"` differ only by a trailing separator yet are not the
same path (normpath keeps the reserved double slash), and the result
depends on the current working directory (an input beyond the two
strings and the platform), as `areSamePaths("a", "/x/a")` shows under
two different working directories. -/
theorem areSamePaths_counterexample :
    areSamePaths ['/', 'c'] ['/'] ['/', '/'] = false ∧
    areSamePaths ['/', 'x'] ['a'] ['/', 'x', '/', 'a'] = true ∧
    areSamePaths ['/', 'y'] ['a'] ['/', 'x', '/', 'a'] = false := by decide

/-- C8 amended: `areSamePaths(P, P)` is true for every path P and every
working directory, and appending a trailing separator preserves
sameness for every path except the POSIX special cases `""`, `"/"` and
`"//"`; the function is deterministic in the two strings plus the
working directory (on POSIX `normcase` is the identity, so
case-folding does not apply). -/
theorem areSamePaths_amended :
    (∀ cwd p, areSamePaths cwd p p = true) ∧
    (∀ cwd p, p ≠ [] → p ≠ ['/'] → p ≠ ['/', '/'] →
      areSamePaths cwd p (p ++ ['/']) = true) := by
  constructor
  · intro cwd p
    simp [areSamePaths]
  · intro cwd p h0 h1 h2
    simp [areSamePaths, normpath_append_slash p h0 h1 h2]

theorem areSamePaths_amended_witness :
    areSamePaths ['/', 'c'] ['a', '/', 'b'] ['a', '/', 'b'] = true ∧
    (['a', '/', 'b'] ≠ ([] : List Char) ∧
      areSamePaths ['/', 'c'] ['a', '/', 'b'] (['a', '/', 'b'] ++ ['/']) = true) :=
  ⟨areSamePaths_amended.1 ['/', 'c'] ['a', '/', 'b'], by decide,
    areSamePaths_amended.2 ['/', 'c'] ['a', '/', 'b'] (by decide) (by decide) (by decide)⟩

/-! ## Order properties of the `listDir` sort key -/

theorem strLe_total : ∀ a b : List Char, strLe a b = true ∨ strLe b a = true
  | [], _ => Or.inl rfl
  | _ :: _, [] => Or.inr rfl
  | a :: as, b :: bs => by
    by_cases hab : a = b
    · subst hab
      rcases strLe_total as bs with h | h
      · exact Or.inl (by simp [strLe, h])
      · exact Or.inr (by simp [strLe, h])
    · rcases Ne.lt_or_lt hab with h | h
      · exact Or.inl (by simp [strLe, hab, h])
      · exact Or.inr (by simp [strLe, Ne.symm hab, h])

theorem strLe_trans : ∀ a b c : List Char,
    strLe a b = true → strLe b c = true → strLe a c = true
  | [], _, _, _, _ => rfl
  | _ :: _, [], _, h1, _ => by simp [strLe] at h1
  | _ :: _, _ :: _, [], _, h2 => by simp [strLe] at h2
  | a :: as, b :: bs, c :: cs, h1, h2 => by
    by_cases hab : a = b <;> by_cases hbc : b = c
    · subst hab; subst hbc
      simp only [strLe, if_pos rfl] at h1 h2 ⊢
      exact strLe_trans as bs cs h1 h2
    · subst hab
      simp only [strLe, if_neg hbc] at h2 ⊢
      exact h2
    · subst hbc
      simp only [strLe, if_neg hab] at h1 ⊢
      exact h1
    · simp only [strLe, if_neg hab] at h1
      simp only [strLe, if_neg hbc] at h2
      have hac : a < c := lt_trans (of_decide_eq_true h1) (of_decide_eq_true h2)
      simp only [strLe, if_neg (ne_of_lt hac)]
      exact decide_eq_true hac

theorem strLe_antisymm : ∀ a b : List Char, strLe a b = true → strLe b a = true → a = b
  | [], [], _, _ => rfl
  | [], _ :: _, _, h2 => by simp [strLe] at h2
  | _ :: _, [], h1, _ => by simp [strLe] at h1
  | a :: as, b :: bs, h1, h2 => by
    by_cases hab : a = b
    · subst hab
      simp only [strLe, if_pos rfl] at h1 h2
      rw [strLe_antisymm as bs h1 h2]
    · simp only [strLe, if_neg hab, if_neg (Ne.symm hab)] at h1 h2
      exact absurd (lt_trans (of_decide_eq_true h1) (of_decide_eq_true h2)) (lt_irrefl a)

theorem pairLe_total (x y : List Char × List Char) :
    pairLe x y = true ∨ pairLe y x = true := by
  by_cases hxy : x.1 = y.1
  · rw [pairLe, if_pos hxy, pairLe, if_pos hxy.symm]
    exact strLe_total x.2 y.2
  · rw [pairLe, if_neg hxy, pairLe, if_neg (Ne.symm hxy)]
    exact strLe_total x.1 y.1

theorem pairLe_trans (x y z : List Char × List Char) (h1 : pairLe x y = true)
    (h2 : pairLe y z = true) : pairLe x z = true := by
  by_cases hxy : x.1 = y.1 <;> by_cases hyz : y.1 = z.1
  · rw [pairLe, if_pos hxy] at h1
    rw [pairLe, if_pos hyz] at h2
    rw [pairLe, if_pos (hxy.trans hyz)]
    exact strLe_trans _ _ _ h1 h2
  · rw [pairLe, if_pos hxy] at h1
    rw [pairLe, if_neg hyz] at h2
    have hxz : x.1 ≠ z.1 := by
      rw [hxy]
      exact hyz
    rw [pairLe, if_neg hxz, hxy]
    exact h2
  · rw [pairLe, if_neg hxy] at h1
    rw [pairLe, if_pos hyz] at h2
    have hxz : x.1 ≠ z.1 := by
      rw [← hyz]
      exact hxy
    rw [pairLe, if_neg hxz, ← hyz]
    exact h1
  · rw [pairLe, if_neg hxy] at h1
    rw [pairLe, if_neg hyz] at h2
    have hs : strLe x.1 z.1 = true := strLe_trans _ _ _ h1 h2
    by_cases hxz : x.1 = z.1
    · exact absurd (strLe_antisymm _ _ h1 (by rw [hxz]; exact h2)) hxy
    · rw [pairLe, if_neg hxz]
      exact hs

theorem pairLe_antisymm (x y : List Char × List Char) (h1 : pairLe x y = true)
    (h2 : pairLe y x = true) : x = y := by
  by_cases hxy : x.1 = y.1
  · rw [pairLe, if_pos hxy] at h1
    rw [pairLe, if_pos hxy.symm] at h2
    exact Prod.ext hxy (strLe_antisymm _ _ h1 h2)
  · rw [pairLe, if_neg hxy] at h1
    rw [pairLe, if_neg (Ne.symm hxy)] at h2
    exact absurd (strLe_antisymm _ _ h1 h2) hxy

instance : IsTotal (List Char × List Char) pairLeP :=
  ⟨fun a b => pairLe_total a b⟩

instance : IsTrans (List Char × List Char) pairLeP :=
  ⟨fun a b c => pairLe_trans a b c⟩

instance : IsAntisymm (List Char × List Char) pairLeP :=
  ⟨fun a b => pairLe_antisymm a b⟩

/-- C9: `listDir` returns exactly the (full path, name) pairs of the
children, sorted ascending by the pair's natural ordering (full path as
primary key), and it is deterministic: any two listings of the same
children (in whatever enumeration order) give identical output. -/
theorem listDir_spec (path : List Char) (names names1 : List (List Char))
    (hperm : names.Perm names1) :
    (listDir path names).Perm (names.map (fun n => (joinPy path n, n))) ∧
    List.Sorted pairLeP (listDir path names) ∧
    listDir path names = listDir path names1 := by
  refine ⟨List.perm_insertionSort pairLeP _, List.sorted_insertionSort pairLeP _, ?_⟩
  exact List.eq_of_perm_of_sorted
    ((List.perm_insertionSort pairLeP _).trans
      ((hperm.map _).trans (List.perm_insertionSort pairLeP _).symm))
    (List.sorted_insertionSort pairLeP _) (List.sorted_insertionSort pairLeP _)

theorem listDir_spec_witness :
    ([['b'], ['a']] : List (List Char)).Perm [['a'], ['b']] ∧
    ((listDir ['d'] [['b'], ['a']]).Perm
        (([['b'], ['a']] : List (List Char)).map (fun n => (joinPy ['d'] n, n))) ∧
      List.Sorted pairLeP (listDir ['d'] [['b'], ['a']]) ∧
      listDir ['d'] [['b'], ['a']] = listDir ['d'] [['a'], ['b']]) :=
  ⟨List.Perm.swap ['a'] ['b'] [],
    listDir_spec ['d'] [['b'], ['a']] [['a'], ['b']] (List.Perm.swap ['a'] ['b'] [])⟩

end FileOperations
